import Mathlib

/-
Verification of the snail-dancer validator core: a shallow embedding of the
consensus engine (`src/core/consensus`), the Proof-of-History clock
(`src/core/poh`), the transaction processor (`src/core/transaction`) and the
block producer (`src/core/block`), together with theorems checking the
specified properties against these definitions.

Modelling conventions:
* JavaScript `Map`s are modelled as association lists (`List (κ × β)`) with
  `mapGet`/`mapSet` reproducing `Map.get`/`Map.set` (replace-in-place on an
  existing key, append otherwise).
* SHA-256 is opaque in the source's contract, so it is a parameter
  `sha : String → String` of every definition that hashes; `readUInt32BE` on a
  digest is likewise a parameter `ru : String → Nat`.
* Machine numbers (slots, epochs, stakes, balances) are `Nat`; the single
  floating-point comparison (`hasSupermajority`) is modelled with exact
  rational arithmetic, which agrees with IEEE doubles for all realistic stake
  magnitudes.
-/

set_option maxRecDepth 4000

namespace SnailDancer

/-! ## Association-list model of JavaScript `Map` -/

/-- Source `Map.get`: value stored at the first matching key, if any. -/
def mapGet {κ β : Type _} [BEq κ] : List (κ × β) → κ → Option β
  | [], _ => none
  | p :: rest, k => if p.1 == k then some p.2 else mapGet rest k

/-- Source `Map.set`: replace the value at an existing key in place, else append. -/
def mapSet {κ β : Type _} [BEq κ] : List (κ × β) → κ → β → List (κ × β)
  | [], k, v => [(k, v)]
  | p :: rest, k, v => if p.1 == k then (k, v) :: rest else p :: mapSet rest k v

theorem mapGet_mapSet_self {κ β : Type _} [BEq κ] [LawfulBEq κ]
    (m : List (κ × β)) (k : κ) (v : β) : mapGet (mapSet m k v) k = some v := by
  induction m with
  | nil => simp [mapGet, mapSet]
  | cons p rest ih =>
    by_cases h : p.1 == k
    · simp [mapGet, mapSet, h]
    · simp [mapGet, mapSet, h, ih]

theorem mapGet_map_value {κ β γ : Type _} [BEq κ]
    (f : β → γ) (m : List (κ × β)) (k : κ) :
    mapGet (m.map (fun p => (p.1, f p.2))) k = (mapGet m k).map f := by
  induction m with
  | nil => simp [mapGet]
  | cons p rest ih =>
    by_cases h : p.1 == k
    · simp [mapGet, h]
    · simp [mapGet, h, ih]

/-! ## Data model (src/types) -/

/-- Source `EPOCH_CONSTANTS.SLOTS_PER_EPOCH` -/
def SLOTS_PER_EPOCH : Nat := 64

/-- Source `EPOCH_CONSTANTS.GENESIS_EPOCH_LEADER_ROTATION_SLOTS` -/
def GENESIS_EPOCH_LEADER_ROTATION_SLOTS : Nat := 4

structure ValidatorInfo where
  publicKey : String
  stake : Nat
  address : String := ""
  port : Nat := 0
  isActive : Bool
  deriving Repr, DecidableEq

instance : Inhabited ValidatorInfo := ⟨⟨"", 0, "", 0, false⟩⟩

structure Vote where
  validator : String
  blockHash : String
  timestamp : Nat
  lockout : Nat
  signature : String
  deriving Repr, DecidableEq

structure Transaction where
  «from» : String
  «to» : String
  amount : Nat
  fee : Nat
  timestamp : Nat
  nonce : Nat
  signature : String
  deriving Repr, DecidableEq

structure Block where
  previousHash : String
  pohHash : String
  pohCount : Nat
  transactions : List Transaction
  timestamp : Nat
  leader : String
  slot : Nat
  epoch : Nat
  hash : String
  signature : String
  deriving Repr, DecidableEq

structure LeaderSchedule where
  epoch : Nat
  schedule : List String
  seed : String
  deriving Repr, DecidableEq

structure ConsensusState where
  currentSlot : Nat
  currentEpoch : Nat
  votedSlots : List Nat := []
  forkChoice : String := ""
  leaderSchedule : List String := []
  epochStartSlot : Nat := 0
  epochFinalHash : Option String := none
  deriving Repr, DecidableEq

/-- The mutable fields of the `SimplifiedConsensus` class. -/
structure SimplifiedConsensus where
  validators : List ValidatorInfo := []
  votes : List (String × List Vote) := []
  consensusState : ConsensusState
  lockouts : List (String × List (Nat × Nat)) := []
  leaderSchedules : List (Nat × LeaderSchedule) := []
  epochBlocks : List (Nat × List Block) := []
  deriving Repr, DecidableEq

/-! ## Consensus engine: stake accounting and voting -/

/-- Source `getActiveValidators` -/
def getActiveValidators (st : SimplifiedConsensus) : List ValidatorInfo :=
  st.validators.filter (·.isActive)

/-- Source `this.validators.get(pk)` (the map is keyed by `publicKey`). -/
def findValidator (st : SimplifiedConsensus) (pk : String) : Option ValidatorInfo :=
  st.validators.find? (fun v => v.publicKey == pk)

/-- Source `getTotalStake` -/
def getTotalStake (st : SimplifiedConsensus) : Nat :=
  st.validators.foldl (fun total v => if v.isActive then total + v.stake else total) 0

/-- Source `getVotesForBlock` -/
def getVotesForBlock (st : SimplifiedConsensus) (blockHash : String) : List Vote :=
  (mapGet st.votes blockHash).getD []

/-- Source `calculateStakeWeight` -/
def calculateStakeWeight (st : SimplifiedConsensus) (blockHash : String) : Nat :=
  (getVotesForBlock st blockHash).foldl
    (fun totalStake vote =>
      match findValidator st vote.validator with
      | some validator => if validator.isActive then totalStake + validator.stake else totalStake
      | none => totalStake) 0

/-- Source `hasSupermajority`: `stakeWeight > (totalStake * 2) / 3` with real division. -/
def hasSupermajority (st : SimplifiedConsensus) (blockHash : String) : Bool :=
  decide ((calculateStakeWeight st blockHash : ℚ) > (getTotalStake st : ℚ) * 2 / 3)

/-- Source `canVote`: false only when some lockout entry expires more than 2 slots
after the current slot. -/
def canVote (st : SimplifiedConsensus) (validatorPublicKey : String)
    (_blockHash : String) : Bool :=
  match mapGet st.lockouts validatorPublicKey with
  | none => true
  | some validatorLockouts =>
    if validatorLockouts.length == 0 then true
    else validatorLockouts.all (fun p =>
      !(decide (st.consensusState.currentSlot < p.2) &&
        decide (p.2 - st.consensusState.currentSlot > 2)))

/-- Source `calculateLockout` -/
def calculateLockout (st : SimplifiedConsensus) (validatorPublicKey : String) : Nat :=
  match mapGet st.lockouts validatorPublicKey with
  | none => 1
  | some validatorLockouts =>
    if validatorLockouts.length == 0 then 1
    else
      let recentVotes := (validatorLockouts.map Prod.snd).filter
        (fun expiry => decide (expiry > st.consensusState.currentSlot))
      if recentVotes.length == 0 then 1 else min (recentVotes.length + 1) 4

/-- Source `validateVoteSync` -/
def validateVoteSync (st : SimplifiedConsensus) (vote : Vote) : Bool :=
  match findValidator st vote.validator with
  | none => false
  | some validator => validator.isActive && canVote st vote.validator vote.blockHash

/-- The `findIndex`/replace-else-push update of a block's vote list inside
`addVote`: replace the first vote by the same validator, else append. -/
def upsertVote (vote : Vote) : List Vote → List Vote
  | [] => [vote]
  | w :: rest => if w.validator == vote.validator then vote :: rest else w :: upsertVote vote rest

/-- Source `updateLockout` -/
def updateLockout (st : SimplifiedConsensus) (validatorPublicKey : String)
    (lockout : Nat) : List (String × List (Nat × Nat)) :=
  match mapGet st.lockouts validatorPublicKey with
  | none => st.lockouts
  | some validatorLockouts =>
    mapSet st.lockouts validatorPublicKey
      (mapSet validatorLockouts st.consensusState.currentSlot
        (st.consensusState.currentSlot + lockout))

/-- Source `addVote`: returns the boolean result together with the state after the call. -/
def addVote (st : SimplifiedConsensus) (vote : Vote) : Bool × SimplifiedConsensus :=
  if !validateVoteSync st vote then (false, st)
  else
    let votes1 := match mapGet st.votes vote.blockHash with
      | none => mapSet st.votes vote.blockHash []
      | some _ => st.votes
    let blockVotes := (mapGet votes1 vote.blockHash).getD []
    let votes2 := mapSet votes1 vote.blockHash (upsertVote vote blockVotes)
    (true, { st with votes := votes2, lockouts := updateLockout st vote.validator vote.lockout })

/-- The accumulator loop of `selectFork`. -/
def selectForkGo (st : SimplifiedConsensus) :
    List Block → Option Block → Nat → Option Block
  | [], bestBlock, _ => bestBlock
  | block :: rest, bestBlock, bestStakeWeight =>
    if calculateStakeWeight st block.hash > bestStakeWeight then
      selectForkGo st rest (some block) (calculateStakeWeight st block.hash)
    else selectForkGo st rest bestBlock bestStakeWeight

/-- Source `selectFork` -/
def selectFork (st : SimplifiedConsensus) (candidateBlocks : List Block) : Option String :=
  (selectForkGo st candidateBlocks none 0).map (·.hash)

/-- Source `getEpochFromSlot` -/
def getEpochFromSlot (slot : Nat) : Nat :=
  slot / SLOTS_PER_EPOCH

/-- Source `cleanupExpiredLockouts`: collecting the slots with `currentSlot >= expiry`
and deleting them equals keeping exactly the entries with `currentSlot < expiry`
(keys of a JS `Map` are unique). -/
def cleanupExpiredLockouts (st : SimplifiedConsensus) : SimplifiedConsensus :=
  { st with lockouts := st.lockouts.map (fun p =>
      (p.1, p.2.filter (fun q => decide (st.consensusState.currentSlot < q.2)))) }

/-! ## Consensus engine: leader schedule and epoch transition -/

/-- Total JavaScript array indexing (`l[i]`); out-of-range access never occurs
at the call sites relevant to the claims. -/
def getIdx {α : Type _} (d : α) : List α → Nat → α
  | [], _ => d
  | a :: _, 0 => a
  | _ :: rest, n + 1 => getIdx d rest n

/-- Source `[shuffled[i], shuffled[j]] = [shuffled[j], shuffled[i]]` -/
def listSwap {α : Type _} (l : List α) (i j : Nat) : List α :=
  match l.get? i, l.get? j with
  | some a, some b => (l.set i b).set j a
  | _, _ => l

/-- The Fisher–Yates loop of `shuffleValidators`: `r i` models
`readUInt32BE(sha256(hash ++ toString i))`; the loop runs `i` from
`length - 1` down to `1`, swapping position `i` with `r i % (i+1)`. -/
def fyAux {α : Type _} (r : Nat → Nat) : Nat → List α → List α
  | 0, l => l
  | k + 1, l => fyAux r k (listSwap l (k + 1) (r (k + 1) % (k + 2)))

/-- Source `shuffleValidators` -/
def shuffleValidators (sha : String → String) (ru : String → Nat)
    (validators : List ValidatorInfo) (seed : String) : List ValidatorInfo :=
  fyAux (fun i => ru (sha (sha seed ++ Nat.repr i))) (validators.length - 1) validators

/-- Insertion step of the deterministic sort by `publicKey`
(`localeCompare` modelled as lexicographic comparison). -/
def insertByKey (v : ValidatorInfo) : List ValidatorInfo → List ValidatorInfo
  | [] => [v]
  | w :: rest =>
    if compare v.publicKey w.publicKey == Ordering.gt then w :: insertByKey v rest
    else v :: w :: rest

/-- Source `sort((a, b) => a.publicKey.localeCompare(b.publicKey))` -/
def sortValidators : List ValidatorInfo → List ValidatorInfo
  | [] => []
  | v :: rest => insertByKey v (sortValidators rest)

/-- The cumulative-stake loop of `selectLeaderByStake`. -/
def selectLeaderGo (seedValue : Nat) :
    Nat → List ValidatorInfo → Option ValidatorInfo
  | _, [] => none
  | cumulativeStake, v :: rest =>
    if seedValue < cumulativeStake + v.stake then some v
    else selectLeaderGo seedValue (cumulativeStake + v.stake) rest

/-- Source `selectLeaderByStake` (with the seed already read as a number);
falls back to the first validator. -/
def selectLeaderByStake (validators : List ValidatorInfo) (seedNum : Nat) : ValidatorInfo :=
  let totalStake := (validators.map (·.stake)).sum
  let seedValue := seedNum % totalStake
  (selectLeaderGo seedValue 0 validators).getD (validators.headD default)

/-- Source `generateEqualDistributionSchedule` -/
def generateEqualDistributionSchedule (sha : String → String) (ru : String → Nat)
    (validators : List ValidatorInfo) (seed : String) : List String :=
  let slotsPerRotation := 4
  let totalSlots := SLOTS_PER_EPOCH
  let totalRotations := totalSlots / slotsPerRotation
  let shuffledValidators := shuffleValidators sha ru validators seed
  let rotations := ((List.range totalRotations).map (fun rotation =>
      List.replicate slotsPerRotation
        (getIdx default shuffledValidators (rotation % shuffledValidators.length)).publicKey)).flatten
  let remainingSlots := totalSlots - rotations.length
  rotations ++ (List.range remainingSlots).map (fun i =>
    (getIdx default shuffledValidators (i % shuffledValidators.length)).publicKey)

/-- Source `generateLeaderSchedule` (reads the engine's active validators). -/
def generateLeaderSchedule (sha : String → String) (ru : String → Nat)
    (validators : List ValidatorInfo) (epoch : Nat) (seed : String) : List String :=
  let activeValidators := validators.filter (·.isActive)
  if activeValidators.length == 0 then []
  else
    let sortedValidators := sortValidators activeValidators
    if epoch > 0 then generateEqualDistributionSchedule sha ru sortedValidators seed
    else
      (List.range SLOTS_PER_EPOCH).map (fun slot =>
        (selectLeaderByStake sortedValidators (ru (sha (sha seed ++ Nat.repr slot)))).publicKey)

/-- Source `calculateEpochFinalHash` -/
def calculateEpochFinalHash (sha : String → String) (st : SimplifiedConsensus)
    (epoch : Nat) : String :=
  let epochBlocks := (mapGet st.epochBlocks epoch).getD []
  if epochBlocks.length == 0 then sha ("epoch-" ++ Nat.repr epoch ++ "-empty")
  else sha (String.join (epochBlocks.map (·.hash)))

/-- Source `transitionToNextEpoch` -/
def transitionToNextEpoch (sha : String → String) (ru : String → Nat)
    (st : SimplifiedConsensus) : SimplifiedConsensus :=
  let currentEpoch := st.consensusState.currentEpoch
  let nextEpoch := currentEpoch + 1
  let epochFinalHash := calculateEpochFinalHash sha st currentEpoch
  let nextSchedule := generateLeaderSchedule sha ru st.validators nextEpoch epochFinalHash
  { st with
    consensusState := { st.consensusState with
      epochFinalHash := some epochFinalHash
      currentEpoch := nextEpoch
      epochStartSlot := st.consensusState.currentSlot
      leaderSchedule := nextSchedule }
    leaderSchedules := mapSet st.leaderSchedules nextEpoch
      ⟨nextEpoch, nextSchedule, epochFinalHash⟩
    epochBlocks := mapSet st.epochBlocks nextEpoch [] }

/-- Source `updateSlot` -/
def updateSlot (sha : String → String) (ru : String → Nat)
    (st : SimplifiedConsensus) (slot : Nat) : SimplifiedConsensus :=
  let previousEpoch := st.consensusState.currentEpoch
  let newEpoch := getEpochFromSlot slot
  let st1 := { st with consensusState := { st.consensusState with currentSlot := slot } }
  let st2 := if newEpoch > previousEpoch then transitionToNextEpoch sha ru st1 else st1
  cleanupExpiredLockouts st2

/-! ## Proof of History (src/core/poh) -/

structure PohEvent where
  type : String
  data : String
  hash : String
  deriving Repr, DecidableEq

structure PohEntry where
  hash : String
  count : Nat
  timestamp : Nat
  events : Option (List PohEvent) := none
  deriving Repr, DecidableEq

/-- The event-hash concatenation mixed into an entry's digest
(`current.events && current.events.length > 0` guard of the source). -/
def pohEventsData (entry : PohEntry) : String :=
  match entry.events with
  | some evs => if evs.length > 0 then String.join (evs.map (·.hash)) else ""
  | none => ""

/-- One step of `verifySequence`'s loop body: sequence-number contiguity plus
digest recomputation from the predecessor. -/
def verifyStep (sha : String → String) (prev current : PohEntry) : Bool :=
  (current.count == prev.count + 1) &&
  (current.hash == sha (prev.hash ++ Nat.repr prev.count ++ pohEventsData current))

def verifyFrom (sha : String → String) : PohEntry → List PohEntry → Bool
  | _, [] => true
  | prev, current :: rest => verifyStep sha prev current && verifyFrom sha current rest

/-- Source `ProofOfHistory.verifySequence` -/
def verifySequence (sha : String → String) : List PohEntry → Bool
  | [] => true
  | e :: rest => verifyFrom sha e rest

/-- The link relation of the specification: adjacent entries are contiguous by
sequence number and chained by digest recomputation. -/
def pohLink (sha : String → String) (prev current : PohEntry) : Prop :=
  current.count = prev.count + 1 ∧
  current.hash = sha (prev.hash ++ Nat.repr prev.count ++ pohEventsData current)

/-! ## Transaction processor (src/core/transaction) -/

structure Account where
  publicKey : String
  balance : Nat
  nonce : Nat
  deriving Repr, DecidableEq

structure TransactionProcessor where
  accounts : List (String × Account) := []
  transactionPool : List Transaction := []
  processedTransactions : List String := []
  deriving Repr, DecidableEq

/-- Source `getAccount` -/
def getAccount (st : TransactionProcessor) (publicKey : String) : Option Account :=
  mapGet st.accounts publicKey

/-- Source `getTransactionId` -/
def getTransactionId (t : Transaction) : String :=
  t.«from» ++ "-" ++ t.«to» ++ "-" ++ Nat.repr t.nonce ++ "-" ++ Nat.repr t.timestamp

/-- Source `validateTransaction`; the asynchronous signature check is the opaque
parameter `verif`, applied last exactly as in the source. -/
def validateTransaction (verif : Transaction → Bool) (st : TransactionProcessor)
    (t : Transaction) : Bool :=
  if st.processedTransactions.contains (getTransactionId t) then false
  else
    match getAccount st t.«from» with
    | none => false
    | some fromAccount =>
      if fromAccount.balance < t.amount + t.fee then false
      else if t.nonce != fromAccount.nonce + 1 then false
      else verif t

/-! ## Block producer (src/core/block) and signature collaborator (src/crypto) -/

def isHexDigit (c : Char) : Bool :=
  c.isDigit || ('a' ≤ c && c ≤ 'f') || ('A' ≤ c && c ≤ 'F')

/-- Number of bytes `Buffer.from(s, 'hex')` decodes: complete pairs of hex
digits up to the first invalid character. -/
def hexPairsLen : List Char → Nat
  | c1 :: c2 :: rest => if isHexDigit c1 && isHexDigit c2 then 1 + hexPairsLen rest else 0
  | _ => 0

def hexDecodeLen (s : String) : Nat :=
  hexPairsLen s.data

/-- Source `SignatureUtils.signMessage`: hash the message, sign by hashing private key
material with the message hash, hex output (the 32-byte digest rendered by the
abstract `sha`). -/
def signMessage (sha : String → String) (message privateKey : String) : String :=
  sha (privateKey ++ sha message)

/-- Source `SignatureUtils.verifySignature` via `KeyPair.verify`, which only checks
that the decoded signature and public key are 32 bytes each. -/
def verifySignature (_sha : String → String) (_message signature publicKey : String) : Bool :=
  decide (hexDecodeLen signature = 32) && decide (hexDecodeLen publicKey = 32)

structure BlockProducer where
  blockchain : List Block := []
  maxTransactionsPerBlock : Nat := 100
  deriving Repr, DecidableEq

/-- Source `getLatestBlock` -/
def getLatestBlock (bp : BlockProducer) : Option Block :=
  bp.blockchain.getLast?

/-- Source `getLatestBlockHash` (`'0'.repeat(64)` for the empty chain). -/
def getLatestBlockHash (bp : BlockProducer) : String :=
  match getLatestBlock bp with
  | some b => b.hash
  | none => String.mk (List.replicate 64 '0')

/-- Source `JSON.stringify` of a transaction, modelled as a deterministic field-order
encoding; the digest function is opaque, so only determinism is relied upon. -/
def encTransaction (t : Transaction) : String :=
  String.intercalate "," [t.«from», t.«to», Nat.repr t.amount, Nat.repr t.fee,
    Nat.repr t.timestamp, Nat.repr t.nonce, t.signature]

/-- Source `JSON.stringify` of the `blockData` object inside `calculateBlockHash`. -/
def encBlockData (previousHash pohHash : String) (pohCount : Nat)
    (transactions : List Transaction) (timestamp : Nat) (leader : String)
    (slot epoch : Nat) : String :=
  String.intercalate ";" [previousHash, pohHash, Nat.repr pohCount,
    String.intercalate "#" (transactions.map encTransaction),
    Nat.repr timestamp, leader, Nat.repr slot, Nat.repr epoch]

/-- Source `BlockProducer.calculateBlockHash` -/
def calculateBlockHash (sha : String → String) (previousHash pohHash : String)
    (pohCount : Nat) (transactions : List Transaction) (timestamp : Nat)
    (leader : String) (slot epoch : Nat) : String :=
  sha (encBlockData previousHash pohHash pohCount transactions timestamp leader slot epoch)

/-- Source `BlockProducer.createBlock`; `now` models `Date.now()`. -/
def createBlock (sha : String → String) (bp : BlockProducer)
    (transactions : List Transaction) (pohHash : String) (pohCount : Nat)
    (leader privateKey : String) (slot epoch : Nat)
    (previousHash? : Option String) (now : Nat) : Block :=
  let limitedTransactions := transactions.take bp.maxTransactionsPerBlock
  let previousHash := previousHash?.getD (getLatestBlockHash bp)
  let hash := calculateBlockHash sha previousHash pohHash pohCount
    limitedTransactions now leader slot epoch
  let signature := signMessage sha hash privateKey
  { previousHash := previousHash, pohHash := pohHash, pohCount := pohCount,
    transactions := limitedTransactions, timestamp := now, leader := leader,
    slot := slot, epoch := epoch, hash := hash, signature := signature }

/-- Source `BlockProducer.validateBlock` -/
def validateBlock (sha : String → String) (bp : BlockProducer) (block : Block) : Bool :=
  let expectedHash := calculateBlockHash sha block.previousHash block.pohHash
    block.pohCount block.transactions block.timestamp block.leader block.slot block.epoch
  if block.hash != expectedHash then false
  else if !(verifySignature sha block.hash block.signature block.leader) then false
  else if bp.blockchain.length > 0 &&
      block.previousHash != (getLatestBlock bp).elim "" (·.hash) then false
  else if block.transactions.length > bp.maxTransactionsPerBlock then false
  else true

/-! ## Concrete instances used by witnesses and counterexamples -/

/-- Three equal-stake validators, two of which voted for block `"b"`:
stake weight 2 of total 3 sits exactly at the two-thirds boundary. -/
def boundaryState : SimplifiedConsensus :=
  { validators := [⟨"v1", 1, "", 0, true⟩, ⟨"v2", 1, "", 0, true⟩, ⟨"v3", 1, "", 0, true⟩]
    votes := [("b", [⟨"v1", "b", 0, 1, "s1"⟩, ⟨"v2", "b", 0, 1, "s2"⟩])]
    consensusState := { currentSlot := 0, currentEpoch := 0 } }

/-- A validator with one fresh lockout (expiry 10, current slot 5). -/
def lockedState : SimplifiedConsensus :=
  { validators := [⟨"v1", 1, "", 0, true⟩]
    consensusState := { currentSlot := 5, currentEpoch := 0 }
    lockouts := [("v1", [(4, 10)])] }

/-- A transaction processor holding one account with nonce 0 and balance 100. -/
def oneAccountState : TransactionProcessor :=
  { accounts := [("alice", ⟨"alice", 100, 0⟩)] }

/-- A transaction from that account whose nonce 5 is not the stored nonce + 1. -/
def badNonceTx : Transaction :=
  ⟨"alice", "bob", 10, 1, 7, 5, "sig"⟩

/-- The empty consensus engine (no validators registered). -/
def emptyConsensus : SimplifiedConsensus :=
  { consensusState := { currentSlot := 0, currentEpoch := 0 } }

/-- A vote naming a validator the empty engine does not know. -/
def strayVote : Vote :=
  ⟨"ghost", "b", 0, 1, "s"⟩

/-- The greatest accumulated voting stake over a candidate list (specification
side, for stating what `selectFork` picks). -/
def maxStakeWeight (st : SimplifiedConsensus) (blocks : List Block) : Nat :=
  (blocks.map (fun b => calculateStakeWeight st b.hash)).foldr max 0

/-- A candidate block that nobody voted for. -/
def candidateBlock : Block :=
  ⟨"p", "poh", 0, [], 0, "ldr", 0, 0, "bh", "sig"⟩

/-- A candidate block whose hash is the voted-for hash of `boundaryState`. -/
def candidateB : Block :=
  ⟨"p", "poh", 0, [], 0, "ldr", 0, 0, "b", "sig"⟩

/-- A concrete injective stand-in for the hash collaborator. -/
def markHash (s : String) : String :=
  "#" ++ s

/-- First entry of a concrete valid PoH sequence under `markHash`. -/
def entryA : PohEntry :=
  ⟨"h0", 0, 0, none⟩

/-- Second entry: its digest is `markHash ("h0" ++ "0" ++ "")`. -/
def entryB : PohEntry :=
  ⟨"#h00", 1, 1, none⟩

/-- Number of votes by a given validator inside a vote list. -/
def countVotesBy (pk : String) (l : List Vote) : Nat :=
  (l.filter (fun w => w.validator == pk)).length

/-- One active validator with an (empty) lockout table, at slot 3. -/
def c8State : SimplifiedConsensus :=
  { validators := [⟨"v1", 5, "", 0, true⟩]
    consensusState := { currentSlot := 3, currentEpoch := 0 }
    lockouts := [("v1", [])] }

/-- A vote by that validator with lockout duration 2. -/
def c8Vote : Vote :=
  ⟨"v1", "b", 9, 2, "sig"⟩

/-- A concrete hash stand-in whose output always decodes to 32 bytes,
matching the hex-rendered SHA-256 digests of the source. -/
def hexHash (_s : String) : String :=
  String.mk (List.replicate 64 'a')

/-- A well-formed leader public key (64 hex characters = 32 bytes). -/
def leader64 : String :=
  String.mk (List.replicate 64 'b')

/-- An already-accepted chain tip with hash "cc". -/
def tipBlock : Block :=
  ⟨"g", "poh", 0, [], 0, "ldr", 0, 0, "cc", "s0"⟩

/-- A block producer whose chain already holds `tipBlock`. -/
def producerWithTip : BlockProducer :=
  { blockchain := [tipBlock], maxTransactionsPerBlock := 100 }

/-- A concrete hash stand-in for the schedule counterexample. -/
def cSha (_s : String) : String := ""

/-- A concrete `readUInt32BE` stand-in: always 0, so every Fisher–Yates step
swaps with position 0. -/
def cRu (_s : String) : Nat := 0

/-- Seventeen active validators: more than the 16 rotations of an epoch but
fewer than its 64 slots. -/
def seventeen : List ValidatorInfo :=
  [⟨"a", 1, "", 0, true⟩, ⟨"b", 1, "", 0, true⟩, ⟨"c", 1, "", 0, true⟩,
   ⟨"d", 1, "", 0, true⟩, ⟨"e", 1, "", 0, true⟩, ⟨"f", 1, "", 0, true⟩,
   ⟨"g", 1, "", 0, true⟩, ⟨"h", 1, "", 0, true⟩, ⟨"i", 1, "", 0, true⟩,
   ⟨"j", 1, "", 0, true⟩, ⟨"k", 1, "", 0, true⟩, ⟨"l", 1, "", 0, true⟩,
   ⟨"m", 1, "", 0, true⟩, ⟨"n", 1, "", 0, true⟩, ⟨"o", 1, "", 0, true⟩,
   ⟨"p", 1, "", 0, true⟩, ⟨"q", 1, "", 0, true⟩]

/-- Two active validators, for the coverage witness. -/
def twoVals : List ValidatorInfo :=
  [⟨"u", 1, "", 0, true⟩, ⟨"w", 1, "", 0, true⟩]

/-- An engine at the last slot of epoch 0 with one accepted block and two
lockout entries, one of which (expiry 2) is expired at slot 64. -/
def c5State : SimplifiedConsensus :=
  { validators := [⟨"v1", 1, "", 0, true⟩]
    consensusState := { currentSlot := 63, currentEpoch := 0 }
    lockouts := [("v1", [(1, 2), (60, 70)])]
    epochBlocks := [(0, [tipBlock])] }

/-! ## Theorems -/

/-- The comparison `hasSupermajority` performs, reduced to exact integers. -/
theorem supermajority_arith (a b : ℕ) : ((a : ℚ) > (b : ℚ) * 2 / 3) ↔ 3 * a > 2 * b := by
  rw [gt_iff_lt, div_lt_iff₀ (by norm_num : (0 : ℚ) < 3), gt_iff_lt]
  constructor
  · intro h
    have h2 : ((2 * b : ℕ) : ℚ) < ((3 * a : ℕ) : ℚ) := by push_cast; linarith
    exact_mod_cast h2
  · intro h
    have h2 : ((2 * b : ℕ) : ℚ) < ((3 * a : ℕ) : ℚ) := by exact_mod_cast h
    push_cast at h2; linarith

/-- C2: `hasSupermajority(blockHash)` is true iff the summed stake of active
validators with a recorded vote for that hash strictly exceeds two-thirds of
the total active stake; in particular at exactly two-thirds it is false. -/
theorem c2_hasSupermajority_strict_two_thirds (st : SimplifiedConsensus) (blockHash : String) :
    (hasSupermajority st blockHash = true ↔
      3 * calculateStakeWeight st blockHash > 2 * getTotalStake st) ∧
    (3 * calculateStakeWeight st blockHash = 2 * getTotalStake st →
      hasSupermajority st blockHash = false) := by
  constructor
  · rw [hasSupermajority, decide_eq_true_iff]
    exact supermajority_arith _ _
  · intro h
    rw [hasSupermajority, decide_eq_false_iff_not, supermajority_arith]
    omega

/-- C2 witness: at stake weight exactly two-thirds of the total (2 of 3),
`hasSupermajority` is false. -/
theorem c2_witness : hasSupermajority boundaryState "b" = false :=
  (c2_hasSupermajority_strict_two_thirds boundaryState "b").2 (by decide)

/-- C4: `canVote` returns false iff the validator holds a lockout entry whose
expiry slot is more than 2 slots after the current slot (so with no entries,
only expired entries, or entries expiring within 2 slots, voting is allowed). -/
theorem c4_canVote_iff_fresh_lockout (st : SimplifiedConsensus) (pk blockHash : String) :
    canVote st pk blockHash = false ↔
      ∃ l, mapGet st.lockouts pk = some l ∧
        ∃ q ∈ l, st.consensusState.currentSlot + 2 < q.2 := by
  unfold canVote
  cases hm : mapGet st.lockouts pk with
  | none => simp
  | some l =>
    dsimp only
    by_cases hl : l.length == 0
    · rw [if_pos hl]
      have : l = [] := by simpa using hl
      subst this
      simp
    · rw [if_neg hl]
      constructor
      · intro h
        rw [← Bool.not_eq_true, List.all_eq_true] at h
        push_neg at h
        rcases h with ⟨q, hq, hfq⟩
        refine ⟨l, rfl, q, hq, ?_⟩
        simp only [Bool.not_eq_true, Bool.not_eq_false', Bool.and_eq_true,
          decide_eq_true_eq] at hfq
        omega
      · rintro ⟨l', hl', q, hq, hgt⟩
        rw [Option.some.injEq] at hl'
        subst hl'
        rw [← Bool.not_eq_true, List.all_eq_true]
        push_neg
        refine ⟨q, hq, ?_⟩
        simp only [Bool.not_eq_true, Bool.not_eq_false', Bool.and_eq_true,
          decide_eq_true_eq]
        omega

/-- C9: a transaction whose nonce is not the sender's stored nonce + 1 is
rejected by `validateTransaction`, whatever the signature check would say. -/
theorem c9_nonce_mismatch_rejected (verif : Transaction → Bool)
    (st : TransactionProcessor) (t : Transaction) (a : Account)
    (ha : getAccount st t.«from» = some a) (hn : t.nonce ≠ a.nonce + 1) :
    validateTransaction verif st t = false := by
  unfold validateTransaction
  split
  · rfl
  · simp only [ha]
    split
    · rfl
    · simp [hn]

/-- C9 witness: the concrete bad-nonce transaction is rejected even with an
always-true signature check. -/
theorem c9_witness : validateTransaction (fun _ => true) oneAccountState badNonceTx = false :=
  c9_nonce_mismatch_rejected (fun _ => true) oneAccountState badNonceTx
    ⟨"alice", 100, 0⟩ (by decide) (by decide)

/-- C10: whenever `addVote` returns false, the consensus state is unchanged. -/
theorem c10_rejected_vote_leaves_state (st : SimplifiedConsensus) (vote : Vote)
    (h : (addVote st vote).1 = false) : (addVote st vote).2 = st := by
  unfold addVote at h ⊢
  cases hv : validateVoteSync st vote with
  | false => simp [hv]
  | true => simp [hv] at h

/-- C10 witness: a vote by an unknown validator is rejected and leaves the
empty engine untouched. -/
theorem c10_witness :
    (addVote emptyConsensus strayVote).1 = false ∧
      (addVote emptyConsensus strayVote).2 = emptyConsensus :=
  ⟨rfl, c10_rejected_vote_leaves_state emptyConsensus strayVote rfl⟩

theorem foldr_max_max (ws : List ℕ) (a b : ℕ) :
    max a (ws.foldr max b) = ws.foldr max (max a b) := by
  induction ws with
  | nil => rfl
  | cons w ws ih => simp only [List.foldr_cons]; rw [Nat.max_left_comm, ih]

theorem le_foldr_max (ws : List ℕ) (b : ℕ) : b ≤ ws.foldr max b := by
  induction ws with
  | nil => exact Nat.le_refl b
  | cons w ws ih => simp only [List.foldr_cons]; omega

/-- Closed form of the `selectFork` accumulator loop: if some candidate beats
the incoming best weight, the first candidate attaining the running maximum
wins, otherwise the incoming best is kept. -/
theorem selectForkGo_eq (st : SimplifiedConsensus) :
    ∀ (l : List Block) (best : Option Block) (bw : Nat),
      selectForkGo st l best bw =
        if bw < (l.map (fun b => calculateStakeWeight st b.hash)).foldr max bw then
          l.find? (fun b => calculateStakeWeight st b.hash ==
            (l.map (fun b => calculateStakeWeight st b.hash)).foldr max bw)
        else best := by
  intro l
  induction l with
  | nil => intro best bw; simp [selectForkGo]
  | cons b l ih =>
    intro best bw
    by_cases h : calculateStakeWeight st b.hash > bw
    · rw [selectForkGo, if_pos h, ih]
      have hM : max (calculateStakeWeight st b.hash)
          ((l.map (fun b => calculateStakeWeight st b.hash)).foldr max bw) =
          (l.map (fun b => calculateStakeWeight st b.hash)).foldr max
            (calculateStakeWeight st b.hash) := by
        rw [foldr_max_max, Nat.max_eq_left (Nat.le_of_lt h)]
      simp only [List.map_cons, List.foldr_cons, hM]
      have hbw : bw < (l.map (fun b => calculateStakeWeight st b.hash)).foldr max
          (calculateStakeWeight st b.hash) :=
        Nat.lt_of_lt_of_le h (le_foldr_max _ _)
      rw [if_pos hbw]
      by_cases hb : calculateStakeWeight st b.hash =
          (l.map (fun b => calculateStakeWeight st b.hash)).foldr max
            (calculateStakeWeight st b.hash)
      · rw [if_neg (by omega), List.find?_cons_of_pos _ (by simpa using hb)]
      · have hlt : calculateStakeWeight st b.hash <
            (l.map (fun b => calculateStakeWeight st b.hash)).foldr max
              (calculateStakeWeight st b.hash) :=
          Nat.lt_of_le_of_ne (le_foldr_max _ _) hb
        rw [if_pos hlt, List.find?_cons_of_neg _ (by simpa using hb)]
    · rw [selectForkGo, if_neg h, ih]
      have hle : calculateStakeWeight st b.hash ≤ bw := Nat.le_of_not_lt h
      have hM : max (calculateStakeWeight st b.hash)
          ((l.map (fun b => calculateStakeWeight st b.hash)).foldr max bw) =
          (l.map (fun b => calculateStakeWeight st b.hash)).foldr max bw := by
        have := le_foldr_max (l.map (fun b => calculateStakeWeight st b.hash)) bw
        omega
      simp only [List.map_cons, List.foldr_cons, hM]
      by_cases hbw : bw < (l.map (fun b => calculateStakeWeight st b.hash)).foldr max bw
      · rw [if_pos hbw, if_pos hbw, List.find?_cons_of_neg _ (by simp; omega)]
      · rw [if_neg hbw, if_neg hbw]

/-- C7 (amended): when the greatest accumulated voting stake among the
candidates is positive, `selectFork` returns the hash of the first candidate
attaining it; when every candidate's stake weight is zero, it returns null. -/
theorem c7_selectFork_first_at_max (st : SimplifiedConsensus) (blocks : List Block) :
    (0 < maxStakeWeight st blocks →
      selectFork st blocks =
        (blocks.find? (fun b =>
          calculateStakeWeight st b.hash == maxStakeWeight st blocks)).map (·.hash)) ∧
    (maxStakeWeight st blocks = 0 → selectFork st blocks = none) := by
  constructor
  · intro h
    unfold maxStakeWeight at h
    unfold selectFork
    rw [selectForkGo_eq st blocks none 0, if_pos h]
    rfl
  · intro h
    unfold maxStakeWeight at h
    unfold selectFork
    rw [selectForkGo_eq st blocks none 0, if_neg (by omega)]
    rfl

/-- C7 counterexample: a non-empty candidate list in a state with no recorded
votes; the claim demands the (unique) candidate's hash, but `selectFork`
returns null because no candidate's stake weight strictly exceeds the initial
best weight of zero. -/
theorem c7_counterexample :
    ([candidateBlock] ≠ []) ∧ selectFork emptyConsensus [candidateBlock] = none :=
  ⟨by decide, rfl⟩

/-- C7 witness: with a positive maximum (stake weight 2 for hash "b"),
`selectFork` returns the first candidate at that maximum. -/
theorem c7_witness : selectFork boundaryState [candidateB] = some "b" :=
  ((c7_selectFork_first_at_max boundaryState [candidateB]).1 (by decide)).trans (by decide)

theorem string_append_cancel_right {a b : String} (s : String) (h : a ++ s = b ++ s) :
    a = b := by
  apply String.ext
  have hd := congrArg String.data h
  simp only [String.data_append] at hd
  exact List.append_cancel_right hd

theorem verifyStep_iff (sha : String → String) (p c : PohEntry) :
    verifyStep sha p c = true ↔ pohLink sha p c := by
  simp [verifyStep, pohLink]

theorem verifyFrom_iff_chain (sha : String → String) (l : List PohEntry) :
    ∀ p, verifyFrom sha p l = true ↔ List.Chain' (pohLink sha) (p :: l) := by
  induction l with
  | nil => intro p; simp [verifyFrom]
  | cons c rest ih =>
    intro p
    rw [verifyFrom, List.chain'_cons, Bool.and_eq_true, verifyStep_iff, ih c]

theorem verifySequence_iff_chain (sha : String → String) (entries : List PohEntry) :
    verifySequence sha entries = true ↔ List.Chain' (pohLink sha) entries := by
  cases entries with
  | nil => simp [verifySequence]
  | cons e rest => rw [verifySequence]; exact verifyFrom_iff_chain sha rest e

theorem pohEventsData_eq_of_events {e1 e2 : PohEntry} (h : e1.events = e2.events) :
    pohEventsData e1 = pohEventsData e2 := by
  unfold pohEventsData
  rw [h]

/-- Replacing any single entry of a valid multi-entry sequence by one that
agrees on the sequence number and mixed events but carries a different digest
makes `verifySequence` reject, provided the hash function is collision-free
(injective). -/
theorem verifySequence_mutate_false (sha : String → String)
    (hinj : Function.Injective sha) (entries : List PohEntry) (i : Nat)
    (hi : i < entries.length) (e' : PohEntry)
    (hv : verifySequence sha entries = true) (hlen : 2 ≤ entries.length)
    (hcount : e'.count = (entries.get ⟨i, hi⟩).count)
    (hevents : e'.events = (entries.get ⟨i, hi⟩).events)
    (hne : e'.hash ≠ (entries.get ⟨i, hi⟩).hash) :
    verifySequence sha (entries.set i e') = false := by
  rw [← Bool.not_eq_true, verifySequence_iff_chain]
  intro hchain
  rw [verifySequence_iff_chain, List.chain'_iff_get] at hv
  rw [List.chain'_iff_get] at hchain
  simp only [List.get_eq_getElem, List.length_set] at hchain hv hcount hevents hne ⊢
  cases i with
  | zero =>
    have hR := hchain 0 (by omega)
    have hR0 := hv 0 (by omega)
    rw [List.getElem_set_self (by simpa using hi),
      List.getElem_set_ne (by omega) (by simpa using hlen)] at hR
    have h2 := hR.2
    have h02 := hR0.2
    rw [h02, hcount] at h2
    have harg := hinj h2
    have hcancel := string_append_cancel_right _ harg
    have hfinal := string_append_cancel_right _ hcancel
    exact hne hfinal.symm
  | succ k =>
    have hR := hchain k (by omega)
    have hR0 := hv k (by omega)
    rw [List.getElem_set_ne (by omega) (by simp; omega),
      List.getElem_set_self (by simpa using hi)] at hR
    have h2 := hR.2
    have h02 := hR0.2
    rw [pohEventsData_eq_of_events hevents, ← h02] at h2
    exact hne h2

/-- C3: `verifySequence` accepts exactly the digest-chained, count-contiguous
entry sequences; empty and single-entry sequences are trivially valid; and in
a valid multi-entry sequence, changing any one entry's digest (hash function
taken collision-free) makes it reject. -/
theorem c3_verifySequence_chain_and_tamper (sha : String → String)
    (hinj : Function.Injective sha) :
    (∀ entries, verifySequence sha entries = true ↔ List.Chain' (pohLink sha) entries) ∧
    (verifySequence sha [] = true ∧ ∀ e, verifySequence sha [e] = true) ∧
    (∀ (entries : List PohEntry) (i : Nat) (hi : i < entries.length) (e' : PohEntry),
      verifySequence sha entries = true → 2 ≤ entries.length →
      e'.count = (entries.get ⟨i, hi⟩).count →
      e'.events = (entries.get ⟨i, hi⟩).events →
      e'.hash ≠ (entries.get ⟨i, hi⟩).hash →
      verifySequence sha (entries.set i e') = false) :=
  ⟨fun entries => verifySequence_iff_chain sha entries,
   ⟨rfl, fun _ => rfl⟩,
   fun entries i hi e' hv hlen hcount hevents hne =>
     verifySequence_mutate_false sha hinj entries i hi e' hv hlen hcount hevents hne⟩

theorem markHash_injective : Function.Injective markHash := by
  intro a b h
  apply String.ext
  have hd := congrArg String.data h
  simp only [markHash, String.data_append] at hd
  exact List.append_cancel_left hd

/-- C3 witness: a concrete two-entry sequence under the injective `markHash`
verifies, and mutating the second entry's digest makes verification fail. -/
theorem c3_witness :
    verifySequence markHash [entryA, entryB] = true ∧
      verifySequence markHash [entryA, { entryB with hash := "x" }] = false :=
  ⟨by decide,
   (c3_verifySequence_chain_and_tamper markHash markHash_injective).2.2
     [entryA, entryB] 1 (by decide) { entryB with hash := "x" }
     (by decide) (by decide) (by decide) (by decide) (by decide)⟩

theorem countVotesBy_upsert (vote : Vote) (l : List Vote) :
    countVotesBy vote.validator (upsertVote vote l) =
      if countVotesBy vote.validator l = 0 then 1 else countVotesBy vote.validator l := by
  induction l with
  | nil => simp [upsertVote, countVotesBy]
  | cons w rest ih =>
    by_cases h : w.validator == vote.validator
    · rw [upsertVote, if_pos h]
      simp [countVotesBy, List.filter_cons, h]
    · rw [upsertVote, if_neg h]
      simp only [countVotesBy, List.filter_cons, h] at ih ⊢
      simpa using ih

theorem find?_upsert (vote : Vote) (l : List Vote) :
    (upsertVote vote l).find? (fun w => w.validator == vote.validator) = some vote := by
  induction l with
  | nil => simp [upsertVote]
  | cons w rest ih =>
    by_cases h : w.validator == vote.validator
    · rw [upsertVote, if_pos h]
      simp
    · rw [upsertVote, if_neg h]
      rw [List.find?_cons_of_neg _ (by simpa using h)]
      exact ih

/-- The vote list `addVote` reads for the vote's block equals the previously
stored one (the `votes.set(blockHash, [])` initialisation is invisible). -/
theorem addVote_blockVotes (st : SimplifiedConsensus) (bh : String) :
    (mapGet (match mapGet st.votes bh with
      | none => mapSet st.votes bh ([] : List Vote)
      | some _ => st.votes) bh).getD [] = getVotesForBlock st bh := by
  cases hm : mapGet st.votes bh with
  | none => simp [mapGet_mapSet_self, getVotesForBlock, hm]
  | some x => simp [getVotesForBlock, hm]

/-- C8: an accepted vote leaves exactly one stored vote by its validator for
the block (the vote itself, replacing any previous one), and the validator's
lockout table gains the entry `currentSlot ↦ currentSlot + lockout`. -/
theorem c8_addVote_replaces_and_updates_lockout (st : SimplifiedConsensus)
    (vote : Vote) (l : List (Nat × Nat))
    (hacc : (addVote st vote).1 = true)
    (hlk : mapGet st.lockouts vote.validator = some l)
    (hunique : countVotesBy vote.validator (getVotesForBlock st vote.blockHash) ≤ 1) :
    (countVotesBy vote.validator
        (getVotesForBlock (addVote st vote).2 vote.blockHash) = 1 ∧
      (getVotesForBlock (addVote st vote).2 vote.blockHash).find?
        (fun w => w.validator == vote.validator) = some vote) ∧
    mapGet (addVote st vote).2.lockouts vote.validator =
      some (mapSet l st.consensusState.currentSlot
        (st.consensusState.currentSlot + vote.lockout)) := by
  have hv : validateVoteSync st vote = true := by
    by_contra hv
    rw [Bool.not_eq_true] at hv
    rw [addVote] at hacc
    simp [hv] at hacc
  simp only [addVote, hv, Bool.not_true, Bool.false_eq_true, if_false]
  refine ⟨⟨?_, ?_⟩, ?_⟩
  · rw [getVotesForBlock]
    simp only [mapGet_mapSet_self, Option.getD_some, addVote_blockVotes]
    rw [countVotesBy_upsert]
    split <;> omega
  · rw [getVotesForBlock]
    simp only [mapGet_mapSet_self, Option.getD_some, addVote_blockVotes]
    exact find?_upsert vote (getVotesForBlock st vote.blockHash)
  · simp only [updateLockout, hlk]
    exact mapGet_mapSet_self _ _ _

/-- C8 witness: the accepted concrete vote is stored exactly once, is the
stored vote, and the lockout table maps slot 3 to 3 + 2 = 5. -/
theorem c8_witness :
    (countVotesBy c8Vote.validator
        (getVotesForBlock (addVote c8State c8Vote).2 c8Vote.blockHash) = 1 ∧
      (getVotesForBlock (addVote c8State c8Vote).2 c8Vote.blockHash).find?
        (fun w => w.validator == c8Vote.validator) = some c8Vote) ∧
    mapGet (addVote c8State c8Vote).2.lockouts c8Vote.validator = some [(3, 5)] :=
  c8_addVote_replaces_and_updates_lockout c8State c8Vote [] rfl rfl (by decide)

/-- C6 (amended): `createBlock` immediately followed by `validateBlock` on the
same chain state yields true, provided the leader key decodes to 32 bytes and
the explicit previous-hash argument, when the chain is non-empty, is either
omitted or equal to the current tip's hash. -/
theorem c6_produce_validate_roundtrip (sha : String → String)
    (h32 : ∀ s, hexDecodeLen (sha s) = 32)
    (bp : BlockProducer) (transactions : List Transaction) (pohHash : String)
    (pohCount : Nat) (leader privateKey : String) (slot epoch : Nat)
    (previousHash? : Option String) (now : Nat)
    (hleader : hexDecodeLen leader = 32)
    (hprev : bp.blockchain = [] ∨ previousHash? = none ∨
      previousHash? = some (getLatestBlockHash bp)) :
    validateBlock sha bp (createBlock sha bp transactions pohHash pohCount
      leader privateKey slot epoch previousHash? now) = true := by
  have hchain : (decide (0 < bp.blockchain.length) &&
      (Option.getD previousHash? (getLatestBlockHash bp) !=
        Option.elim (getLatestBlock bp) "" (fun b => b.hash))) = false := by
    rcases hprev with hempty | hnone | hsome
    · rw [hempty]
      rfl
    · subst hnone
      cases hlast : getLatestBlock bp with
      | none =>
        have hnil : bp.blockchain = [] := by
          rw [getLatestBlock] at hlast
          exact List.getLast?_eq_none_iff.mp hlast
        rw [hnil]
        rfl
      | some tip =>
        simp only [Option.getD_none, getLatestBlockHash, hlast, Option.elim,
          bne_self_eq_false, Bool.and_false]
    · subst hsome
      cases hlast : getLatestBlock bp with
      | none =>
        have hnil : bp.blockchain = [] := by
          rw [getLatestBlock] at hlast
          exact List.getLast?_eq_none_iff.mp hlast
        rw [hnil]
        rfl
      | some tip =>
        simp only [Option.getD_some, getLatestBlockHash, hlast, Option.elim,
          bne_self_eq_false, Bool.and_false]
  have htx : ¬ ((transactions.take bp.maxTransactionsPerBlock).length >
      bp.maxTransactionsPerBlock) := by
    simp only [List.length_take, gt_iff_lt]
    omega
  simp only [validateBlock, createBlock, bne_self_eq_false, Bool.false_eq_true,
    if_false, verifySignature, signMessage, h32, hleader,
    (rfl : decide ((32 : Nat) = 32) = true), (rfl : decide True = true),
    Bool.and_self, Bool.not_true, hchain]
  rw [if_neg htx]
  simp

/-- C6 counterexample: with a non-empty chain (tip hash "cc") and an explicit
previous-hash argument "zz", the block produced by `createBlock` is rejected by
`validateBlock` on the same chain state, refuting the round-trip for every
input and every chain state. -/
theorem c6_counterexample :
    validateBlock hexHash producerWithTip
      (createBlock hexHash producerWithTip [] "p" 0 leader64 "k" 1 0 (some "zz") 5)
      = false := by decide

/-- C6 witness: with the previous-hash argument omitted, the round-trip on the
same non-empty chain state succeeds. -/
theorem c6_witness :
    validateBlock hexHash producerWithTip
      (createBlock hexHash producerWithTip [] "p" 0 leader64 "k" 1 0 none 5) = true :=
  c6_produce_validate_roundtrip hexHash (fun _ => rfl) producerWithTip [] "p" 0
    leader64 "k" 1 0 none 5 (by decide) (Or.inr (Or.inl rfl))

theorem getIdx_eq_of_get? {α : Type _} (d : α) (l : List α) (i : Nat) (a : α)
    (h : l.get? i = some a) : getIdx d l i = a := by
  induction l generalizing i with
  | nil => simp [List.get?] at h
  | cons x rest ih =>
    cases i with
    | zero =>
      simp only [List.get?_cons_zero, Option.some.injEq] at h
      simp [getIdx, h]
    | succ n =>
      rw [List.get?_cons_succ] at h
      exact ih n h

theorem listSwap_length {α : Type _} (l : List α) (i j : Nat) :
    (listSwap l i j).length = l.length := by
  unfold listSwap
  split
  · simp [List.length_set]
  · rfl

theorem mem_listSwap {α : Type _} {x : α} {l : List α} (i j : Nat) (hx : x ∈ l) :
    x ∈ listSwap l i j := by
  cases ha : l.get? i with
  | none => unfold listSwap; rw [ha]; exact hx
  | some a =>
    cases hb : l.get? j with
    | none => unfold listSwap; rw [ha, hb]; exact hx
    | some b =>
      unfold listSwap
      rw [ha, hb]
      obtain ⟨hi, -⟩ := List.get?_eq_some.mp ha
      obtain ⟨hj, -⟩ := List.get?_eq_some.mp hb
      obtain ⟨p, hp⟩ := List.mem_iff_get?.mp hx
      have hj' : j < (l.set i b).length := by simpa [List.length_set] using hj
      by_cases hpi : p = i
      · have hax : a = x := by
          rw [hpi] at hp
          exact Option.some.inj (ha.symm.trans hp)
        apply List.mem_iff_get?.mpr
        refine ⟨j, ?_⟩
        rw [List.get?_set_eq, List.get?_eq_get hj']
        simp [hax]
      · by_cases hpj : p = j
        · have hbx : b = x := by
            rw [hpj] at hp
            exact Option.some.inj (hb.symm.trans hp)
          by_cases hij : i = j
          · have hab : a = b := by
              rw [hij] at ha
              exact Option.some.inj (ha.symm.trans hb)
            apply List.mem_iff_get?.mpr
            refine ⟨j, ?_⟩
            rw [List.get?_set_eq, List.get?_eq_get hj']
            simp [hab, hbx]
          · apply List.mem_iff_get?.mpr
            refine ⟨i, ?_⟩
            rw [List.get?_set_ne _ _ (fun h => hij h.symm), List.get?_set_eq, ha]
            simp [hbx]
        · apply List.mem_iff_get?.mpr
          refine ⟨p, ?_⟩
          rw [List.get?_set_ne _ _ (fun h => hpj h.symm),
            List.get?_set_ne _ _ (fun h => hpi h.symm), hp]

theorem fyAux_length {α : Type _} (r : Nat → Nat) (k : Nat) :
    ∀ l : List α, (fyAux r k l).length = l.length := by
  induction k with
  | zero => intro l; rfl
  | succ n ih => intro l; rw [fyAux, ih, listSwap_length]

theorem mem_fyAux {α : Type _} {x : α} (r : Nat → Nat) (k : Nat) :
    ∀ {l : List α}, x ∈ l → x ∈ fyAux r k l := by
  induction k with
  | zero => intro l hx; exact hx
  | succ n ih => intro l hx; rw [fyAux]; exact ih (mem_listSwap _ _ hx)

theorem shuffleValidators_length (sha : String → String) (ru : String → Nat)
    (vals : List ValidatorInfo) (seed : String) :
    (shuffleValidators sha ru vals seed).length = vals.length :=
  fyAux_length _ _ _

theorem mem_shuffleValidators (sha : String → String) (ru : String → Nat)
    {v : ValidatorInfo} {vals : List ValidatorInfo} (seed : String) (hv : v ∈ vals) :
    v ∈ shuffleValidators sha ru vals seed :=
  mem_fyAux _ _ hv

theorem length_insertByKey (v : ValidatorInfo) (l : List ValidatorInfo) :
    (insertByKey v l).length = l.length + 1 := by
  induction l with
  | nil => rfl
  | cons w rest ih =>
    rw [insertByKey]
    split
    · simp [ih]
    · simp

theorem mem_insertByKey {x v : ValidatorInfo} {l : List ValidatorInfo} :
    x ∈ insertByKey v l ↔ x = v ∨ x ∈ l := by
  induction l with
  | nil => simp [insertByKey]
  | cons w rest ih =>
    rw [insertByKey]
    split
    · simp only [List.mem_cons, ih]
      tauto
    · simp only [List.mem_cons]

theorem length_sortValidators (l : List ValidatorInfo) :
    (sortValidators l).length = l.length := by
  induction l with
  | nil => rfl
  | cons v rest ih =>
    rw [sortValidators, length_insertByKey, ih]
    rfl

theorem mem_sortValidators {x : ValidatorInfo} {l : List ValidatorInfo} :
    x ∈ sortValidators l ↔ x ∈ l := by
  induction l with
  | nil => simp [sortValidators]
  | cons v rest ih =>
    rw [sortValidators, mem_insertByKey, ih]
    simp

theorem length_flatten_replicate {α : Type _} (n m : Nat) (f : Nat → α) :
    (((List.range n).map (fun r => List.replicate m (f r))).flatten).length = n * m := by
  induction n with
  | zero => simp
  | succ k ih =>
    rw [List.range_succ, List.map_append, List.flatten_append, List.length_append, ih]
    simp [Nat.succ_mul]

theorem generateEqualDistributionSchedule_length (sha : String → String)
    (ru : String → Nat) (vals : List ValidatorInfo) (seed : String) :
    (generateEqualDistributionSchedule sha ru vals seed).length = SLOTS_PER_EPOCH := by
  simp only [generateEqualDistributionSchedule]
  rw [List.length_append, length_flatten_replicate, List.length_map,
    List.length_range]
  norm_num [SLOTS_PER_EPOCH]

/-- Each validator of the (shuffled) list is scheduled at least once whenever
the list has at most as many validators as there are rotations (16). -/
theorem mem_generateEqualDistributionSchedule (sha : String → String)
    (ru : String → Nat) (vals : List ValidatorInfo) (seed : String)
    (v : ValidatorInfo) (hv : v ∈ vals) (hlen : vals.length ≤ 16) :
    v.publicKey ∈ generateEqualDistributionSchedule sha ru vals seed := by
  have hvs : v ∈ shuffleValidators sha ru vals seed :=
    mem_shuffleValidators sha ru seed hv
  have hlen' : (shuffleValidators sha ru vals seed).length = vals.length :=
    shuffleValidators_length sha ru vals seed
  obtain ⟨p, hp⟩ := List.mem_iff_get?.mp hvs
  obtain ⟨hplt, -⟩ := List.get?_eq_some.mp hp
  simp only [generateEqualDistributionSchedule]
  apply List.mem_append_left
  rw [List.mem_flatten]
  refine ⟨List.replicate 4 v.publicKey, ?_, ?_⟩
  · rw [List.mem_map]
    refine ⟨p, List.mem_range.mpr ?_, ?_⟩
    · have h16 : SLOTS_PER_EPOCH / 4 = 16 := rfl
      have : p < vals.length := hlen' ▸ hplt
      omega
    · have hmod : p % (shuffleValidators sha ru vals seed).length = p :=
        Nat.mod_eq_of_lt hplt
      rw [hmod, getIdx_eq_of_get? _ _ _ _ hp]
  · exact List.mem_replicate.mpr ⟨by norm_num, rfl⟩

/-- C1 (amended): for every non-empty active set the generated schedule has
length exactly `SLOTS_PER_EPOCH` (64); and for post-genesis epochs every
active validator appears at least once whenever the active-validator count is
at most the number of rotations (64 / 4 = 16) — not merely at most the slot
count. -/
theorem c1_schedule_length_and_coverage (sha : String → String) (ru : String → Nat)
    (validators : List ValidatorInfo) (epoch : Nat) (seed : String) :
    (validators.filter (·.isActive) ≠ [] →
      (generateLeaderSchedule sha ru validators epoch seed).length = SLOTS_PER_EPOCH) ∧
    (1 ≤ epoch → (validators.filter (·.isActive)).length ≤ 16 →
      ∀ v ∈ validators, v.isActive = true →
        v.publicKey ∈ generateLeaderSchedule sha ru validators epoch seed) := by
  constructor
  · intro hne
    simp only [generateLeaderSchedule]
    rw [if_neg (by simpa [List.length_eq_zero] using hne)]
    by_cases hep : epoch > 0
    · rw [if_pos hep]
      exact generateEqualDistributionSchedule_length sha ru _ seed
    · rw [if_neg hep]
      simp
  · intro hep hle v hv hact
    have hvf : v ∈ validators.filter (·.isActive) :=
      List.mem_filter.mpr ⟨hv, by simp [hact]⟩
    have hne : validators.filter (·.isActive) ≠ [] := by
      intro h
      rw [h] at hvf
      simp at hvf
    simp only [generateLeaderSchedule]
    rw [if_neg (by simpa [List.length_eq_zero] using hne), if_pos (by omega : epoch > 0)]
    apply mem_generateEqualDistributionSchedule
    · exact mem_sortValidators.mpr hvf
    · rw [length_sortValidators]
      exact hle

/-- C1 counterexample: 17 active validators, epoch 1. The slot count 64 is at
least the validator count, yet validator "a" never appears in the generated
schedule (only 16 rotation slots exist and the remainder loop is empty). -/
theorem c1_counterexample :
    (seventeen.filter (·.isActive)).length ≤ SLOTS_PER_EPOCH ∧
    (⟨"a", 1, "", 0, true⟩ : ValidatorInfo) ∈ seventeen ∧
    (generateLeaderSchedule cSha cRu seventeen 1 "seed").length = SLOTS_PER_EPOCH ∧
    "a" ∉ generateLeaderSchedule cSha cRu seventeen 1 "seed" := by
  decide

/-- C1 witness: with two active validators in epoch 1, the schedule has length
64 and covers validator "u". -/
theorem c1_witness :
    (generateLeaderSchedule cSha cRu twoVals 1 "s").length = SLOTS_PER_EPOCH ∧
    "u" ∈ generateLeaderSchedule cSha cRu twoVals 1 "s" :=
  ⟨(c1_schedule_length_and_coverage cSha cRu twoVals 1 "s").1 (by decide),
   (c1_schedule_length_and_coverage cSha cRu twoVals 1 "s").2 (by decide) (by decide)
     ⟨"u", 1, "", 0, true⟩ (by decide) rfl⟩

/-- C5: `updateSlot(s)` sets the current slot to `s`; when the epoch implied
by `s` exceeds the stored epoch it records the ended epoch's final hash (the
digest of the concatenated accepted-block hashes, or the epoch-specific
placeholder when the epoch produced no blocks) and stores a schedule for the
next epoch seeded by that hash; and in every case each lockout entry whose
expiry has passed (expiry ≤ s) is purged while the others survive. -/
theorem c5_updateSlot_behaviour (sha : String → String) (ru : String → Nat)
    (st : SimplifiedConsensus) (slot : Nat) :
    ((updateSlot sha ru st slot).consensusState.currentSlot = slot) ∧
    (getEpochFromSlot slot > st.consensusState.currentEpoch →
      ((updateSlot sha ru st slot).consensusState.epochFinalHash =
        some (calculateEpochFinalHash sha st st.consensusState.currentEpoch)) ∧
      (calculateEpochFinalHash sha st st.consensusState.currentEpoch =
        if (mapGet st.epochBlocks st.consensusState.currentEpoch).getD [] = [] then
          sha ("epoch-" ++ Nat.repr st.consensusState.currentEpoch ++ "-empty")
        else sha (String.join
          (((mapGet st.epochBlocks st.consensusState.currentEpoch).getD []).map (·.hash)))) ∧
      ∃ ls : LeaderSchedule,
        mapGet (updateSlot sha ru st slot).leaderSchedules
          (st.consensusState.currentEpoch + 1) = some ls ∧
        ls.epoch = st.consensusState.currentEpoch + 1 ∧
        ls.seed = calculateEpochFinalHash sha st st.consensusState.currentEpoch) ∧
    (∀ pk, mapGet (updateSlot sha ru st slot).lockouts pk =
      (mapGet st.lockouts pk).map (fun l => l.filter (fun q => decide (slot < q.2)))) := by
  have hplaceholder : calculateEpochFinalHash sha st st.consensusState.currentEpoch =
      if (mapGet st.epochBlocks st.consensusState.currentEpoch).getD [] = [] then
        sha ("epoch-" ++ Nat.repr st.consensusState.currentEpoch ++ "-empty")
      else sha (String.join
        (((mapGet st.epochBlocks st.consensusState.currentEpoch).getD []).map (·.hash))) := by
    simp only [calculateEpochFinalHash]
    by_cases hb : (mapGet st.epochBlocks st.consensusState.currentEpoch).getD [] = []
    · rw [if_pos hb, if_pos (by simp [hb, List.length_eq_zero])]
    · rw [if_neg hb, if_neg (by simp [List.length_eq_zero, hb])]
  by_cases h : getEpochFromSlot slot > st.consensusState.currentEpoch
  · have hupd : updateSlot sha ru st slot =
        cleanupExpiredLockouts (transitionToNextEpoch sha ru
          { st with consensusState := { st.consensusState with currentSlot := slot } }) := by
      simp only [updateSlot, if_pos h]
    rw [hupd]
    refine ⟨rfl, fun _ => ⟨rfl, hplaceholder, ?_⟩, fun pk => mapGet_map_value _ _ _⟩
    exact ⟨_, mapGet_mapSet_self _ _ _, rfl, rfl⟩
  · have hupd : updateSlot sha ru st slot =
        cleanupExpiredLockouts
          { st with consensusState := { st.consensusState with currentSlot := slot } } := by
      simp only [updateSlot, if_neg h]
    rw [hupd]
    exact ⟨rfl, fun hc => absurd hc h, fun pk => mapGet_map_value _ _ _⟩

/-- C5 witness: crossing from slot 63 (epoch 0) to slot 64 (epoch 1) records
epoch 0's final hash, stores an epoch-1 schedule seeded by it, and purges the
expired lockout entry (expiry 2) while keeping the live one (expiry 70). -/
theorem c5_witness :
    (updateSlot cSha cRu c5State 64).consensusState.currentSlot = 64 ∧
    (updateSlot cSha cRu c5State 64).consensusState.epochFinalHash =
      some (calculateEpochFinalHash cSha c5State 0) ∧
    (∃ ls : LeaderSchedule,
      mapGet (updateSlot cSha cRu c5State 64).leaderSchedules 1 = some ls ∧
      ls.epoch = 1 ∧ ls.seed = calculateEpochFinalHash cSha c5State 0) ∧
    mapGet (updateSlot cSha cRu c5State 64).lockouts "v1" =
      some ([(60, 70)] : List (Nat × Nat)) := by
  have h := c5_updateSlot_behaviour cSha cRu c5State 64
  refine ⟨h.1, (h.2.1 (by decide)).1, (h.2.1 (by decide)).2.2, ?_⟩
  rw [h.2.2 "v1"]
  decide

end SnailDancer
